import Mathlib

/-!
A shallow embedding of the `bids_qc_pkg` structural-QC pipeline
(`struct_pipeline_initial.py`, `struct_pipeline_final.py`,
`struct_generate_html_reports.py`, `struct_report_generator.py`),
together with theorems settling the specification claims about it.

Machine integers of the source are Python arbitrary-precision integers, so
they are modelled by `Nat`/`Int` directly.  NumPy floating-point values enter
only through `np.linspace(..., dtype=int)`, which is modelled exactly over
the integers (the spacing arithmetic is exact for the integer endpoints used
by the program).  File-system and volume-loading effects are modelled by
explicit `Except` results.
-/

set_option autoImplicit false

namespace BidsQC

/-! ## The data model: 3D volumes -/

/-- A 3D volume of scalar intensities, axes `(x, y, z)`; `val x y z` is the
voxel value at those coordinates (model of the `np.ndarray` `data`). -/
structure Volume where
  xsize : Nat
  ysize : Nat
  zsize : Nat
  val : Nat → Nat → Nat → Int

/-- Sum of all intensities of the 2D slice of `v` at z-index `z`
(one entry of `np.sum(data, axis=(0, 1))`). -/
def sliceSum (v : Volume) (z : Nat) : Int :=
  ((List.range v.xsize).map (fun x =>
    ((List.range v.ysize).map (fun y => v.val x y z)).sum)).sum

/-- Model of `slice_sums = np.sum(data, axis=(0, 1))`: the per-z-index intensity sums. -/
def sliceSums (v : Volume) : List Int :=
  (List.range v.zsize).map (sliceSum v)

/-! ## NumPy primitives used by `find_slices_of_interest` -/

/-- The maximum of a list of integers (`0` on the empty list, which the
source never evaluates: `np.argmax` raises there). -/
def maxVal : List Int → Int
  | [] => 0
  | a :: rest => rest.foldl max a

/-- Model of `np.argmax`: the index of the first occurrence of the maximum value. -/
def npArgmax (l : List Int) : Nat := l.indexOf (maxVal l)

/-- Model of `np.linspace(lo, hi, n, dtype=int)` for natural endpoints `lo ≤ hi`:
`n` evenly spaced points from `lo` to `hi` inclusive, truncated to integers.
For `lo ≤ hi` the points are non-negative, so truncation is floor division:
the `i`-th point is `⌊lo + i*(hi-lo)/(n-1)⌋ = (lo*(n-1) + i*(hi-lo)) / (n-1)`. -/
def linspaceTrunc (lo hi n : Nat) : List Nat :=
  if n = 0 then []
  else if n = 1 then [lo]
  else (List.range n).map (fun i => (lo * (n - 1) + i * (hi - lo)) / (n - 1))

/-- Insert `x` into a strictly-sorted ascending list, keeping it
strictly sorted (dropping `x` if already present). -/
def insIdx (x : Nat) : List Nat → List Nat
  | [] => [x]
  | y :: ys =>
    if x < y then x :: y :: ys
    else if x = y then y :: ys
    else y :: insIdx x ys

/-- Model of `np.unique`: the sorted list of the distinct values of `l`. -/
def npUnique (l : List Nat) : List Nat := l.foldr insIdx []

/-! ## `find_slices_of_interest`

Translated from `struct_pipeline_initial.py` lines 15-23 and (identically)
`struct_pipeline_final.py` lines 90-118.  Python's `max(0, best_idx - margin)`
on integers equals truncated subtraction on naturals, and
`min(zsize - 1, best_idx + margin)` is evaluated under `zsize ≥ 1` in any run
that reaches it (`np.argmax` raises on an empty z-axis). -/

namespace Initial

/-- Model of `find_slices_of_interest(data, num_slices)` of `struct_pipeline_initial.py`. -/
def find_slices_of_interest (data : Volume) (num_slices : Nat) : List Nat :=
  let slice_sums := sliceSums data
  let best_idx := npArgmax slice_sums
  let margin := num_slices * 5
  let zsize := data.zsize
  let start_idx := best_idx - margin
  let end_idx := min (zsize - 1) (best_idx + margin)
  npUnique (linspaceTrunc start_idx end_idx num_slices)

end Initial

namespace Final

/-- Model of `find_slices_of_interest(data, num_slices)` of `struct_pipeline_final.py`. -/
def find_slices_of_interest (data : Volume) (num_slices : Nat) : List Nat :=
  let slice_sums := sliceSums data
  let best_idx := npArgmax slice_sums
  let margin := num_slices * 5
  let zsize := data.zsize
  let start_idx := best_idx - margin
  let end_idx := min (zsize - 1) (best_idx + margin)
  npUnique (linspaceTrunc start_idx end_idx num_slices)

end Final

/-! ## Lemmas about the NumPy primitives -/

theorem foldl_max_mem : ∀ (t : List Int) (a : Int), t.foldl max a ∈ a :: t := by
  intro t
  induction t with
  | nil => simp
  | cons b s ih =>
    intro a
    have h := List.mem_cons.mp (ih (max a b))
    simp only [List.foldl_cons, List.mem_cons]
    rcases h with h1 | h1
    · rcases max_choice a b with hm | hm
      · exact Or.inl (h1.trans hm)
      · exact Or.inr (Or.inl (h1.trans hm))
    · exact Or.inr (Or.inr h1)

theorem maxVal_mem (l : List Int) (hl : l ≠ []) : maxVal l ∈ l := by
  match l with
  | a :: rest => exact foldl_max_mem rest a

theorem length_sliceSums (v : Volume) : (sliceSums v).length = v.zsize := by
  simp [sliceSums]

theorem npArgmax_lt_length (l : List Int) (hl : l ≠ []) : npArgmax l < l.length :=
  List.indexOf_lt_length.mpr (maxVal_mem l hl)

theorem length_linspaceTrunc (lo hi n : Nat) : (linspaceTrunc lo hi n).length = n := by
  unfold linspaceTrunc
  split
  · simp_all
  · split <;> simp_all

theorem linspaceTrunc_ne_nil (lo hi n : Nat) (hn : 1 ≤ n) : linspaceTrunc lo hi n ≠ [] := by
  intro h
  have := length_linspaceTrunc lo hi n
  rw [h] at this
  simp at this
  omega

theorem mem_linspaceTrunc_le (lo hi n : Nat) (hlohi : lo ≤ hi) {x : Nat}
    (hx : x ∈ linspaceTrunc lo hi n) : x ≤ hi := by
  unfold linspaceTrunc at hx
  split at hx
  · simp at hx
  · split at hx
    · simp at hx
      omega
    · simp only [List.mem_map, List.mem_range] at hx
      obtain ⟨i, hi', rfl⟩ := hx
      have h1 : 1 ≤ n - 1 := by omega
      have hnum : lo * (n - 1) + i * (hi - lo) ≤ hi * (n - 1) := by
        have : i * (hi - lo) ≤ (n - 1) * (hi - lo) := by
          exact Nat.mul_le_mul_right _ (by omega)
        calc lo * (n - 1) + i * (hi - lo) ≤ lo * (n - 1) + (n - 1) * (hi - lo) := by omega
          _ = (lo + (hi - lo)) * (n - 1) := by ring
          _ = hi * (n - 1) := by rw [Nat.add_sub_cancel' hlohi]
      calc (lo * (n - 1) + i * (hi - lo)) / (n - 1) ≤ hi * (n - 1) / (n - 1) :=
            Nat.div_le_div_right hnum
        _ = hi := Nat.mul_div_cancel hi (by omega)

theorem linspaceTrunc_all_zero (n : Nat) {x : Nat}
    (hx : x ∈ linspaceTrunc 0 0 n) : x = 0 := by
  unfold linspaceTrunc at hx
  split at hx
  · simp at hx
  · split at hx
    · simp at hx; omega
    · simp only [List.mem_map, List.mem_range] at hx
      obtain ⟨i, hi', rfl⟩ := hx
      simp

/-- Consecutive `linspace` points are non-decreasing. -/
theorem linspaceTrunc_chain'_le (lo hi n : Nat) :
    (linspaceTrunc lo hi n).Chain' (· ≤ ·) := by
  unfold linspaceTrunc
  split
  · simp
  · split
    · simp
    · rw [List.chain'_map]
      rcases Nat.exists_eq_add_of_le (show 1 ≤ n by omega) with ⟨m, rfl⟩
      rw [Nat.add_comm 1 m, List.chain'_range_succ]
      intro i _
      exact Nat.div_le_div_right (by nlinarith)

/-- When the span is at least `n - 1`, consecutive `linspace` points are
strictly increasing. -/
theorem linspaceTrunc_chain'_lt (lo hi n : Nat) (hspan : n - 1 ≤ hi - lo) :
    (linspaceTrunc lo hi n).Chain' (· < ·) := by
  unfold linspaceTrunc
  split
  · simp
  · split
    · simp
    · rw [List.chain'_map]
      rcases Nat.exists_eq_add_of_le (show 1 ≤ n by omega) with ⟨m, rfl⟩
      rw [Nat.add_comm 1 m, List.chain'_range_succ]
      intro i _
      have hm : 1 ≤ m := by omega
      have hstep : m ≤ hi - lo := by omega
      simp only [Nat.add_sub_cancel, Nat.succ_eq_add_one]
      show (lo * m + i * (hi - lo)) / m < (lo * m + (i + 1) * (hi - lo)) / m
      have h1 : (lo * m + i * (hi - lo) + m) / m ≤ (lo * m + (i + 1) * (hi - lo)) / m := by
        apply Nat.div_le_div_right
        nlinarith
      have h2 : (lo * m + i * (hi - lo) + m) / m = (lo * m + i * (hi - lo)) / m + 1 :=
        Nat.add_div_right _ (by omega)
      omega

theorem insIdx_ne_nil (x : Nat) (l : List Nat) : insIdx x l ≠ [] := by
  cases l with
  | nil => simp [insIdx]
  | cons y ys =>
    unfold insIdx
    split
    · simp
    · split <;> simp

theorem length_insIdx_le (x : Nat) (l : List Nat) :
    (insIdx x l).length ≤ l.length + 1 := by
  induction l with
  | nil => simp [insIdx]
  | cons y ys ih =>
    show (if x < y then x :: y :: ys
          else if x = y then y :: ys else y :: insIdx x ys).length ≤ _
    split
    · simp
    · split
      · simp
      · simp only [List.length_cons]
        omega

theorem mem_insIdx (x a : Nat) (l : List Nat) :
    a ∈ insIdx x l ↔ a = x ∨ a ∈ l := by
  induction l with
  | nil => simp [insIdx]
  | cons y ys ih =>
    show a ∈ (if x < y then x :: y :: ys
              else if x = y then y :: ys else y :: insIdx x ys) ↔ _
    split
    · simp
    · split
      · next h1 h2 => subst h2; simp only [List.mem_cons]; tauto
      · simp only [List.mem_cons, ih]; tauto

theorem pairwise_lt_insIdx (x : Nat) (l : List Nat) (hl : l.Pairwise (· < ·)) :
    (insIdx x l).Pairwise (· < ·) := by
  induction l with
  | nil => simp [insIdx]
  | cons y ys ih =>
    rw [List.pairwise_cons] at hl
    show (if x < y then x :: y :: ys
          else if x = y then y :: ys else y :: insIdx x ys).Pairwise _
    split
    · next h =>
      rw [List.pairwise_cons]
      refine ⟨?_, List.pairwise_cons.mpr hl⟩
      intro a ha
      simp only [List.mem_cons] at ha
      rcases ha with rfl | ha
      · exact h
      · exact lt_trans h (hl.1 a ha)
    · split
      · exact List.pairwise_cons.mpr hl
      · next h1 h2 =>
        rw [List.pairwise_cons]
        refine ⟨?_, ih hl.2⟩
        intro a ha
        rw [mem_insIdx] at ha
        rcases ha with rfl | ha
        · omega
        · exact hl.1 a ha

theorem pairwise_lt_npUnique (l : List Nat) : (npUnique l).Pairwise (· < ·) := by
  induction l with
  | nil => simp [npUnique]
  | cons a t ih => exact pairwise_lt_insIdx a _ ih

theorem npUnique_ne_nil (l : List Nat) (hl : l ≠ []) : npUnique l ≠ [] := by
  cases l with
  | nil => simp at hl
  | cons a t => exact insIdx_ne_nil a _

theorem length_npUnique_le (l : List Nat) : (npUnique l).length ≤ l.length := by
  induction l with
  | nil => simp [npUnique]
  | cons a t ih =>
    calc (insIdx a (npUnique t)).length ≤ (npUnique t).length + 1 := length_insIdx_le _ _
      _ ≤ t.length + 1 := Nat.add_le_add_right ih 1
      _ = (a :: t).length := by simp

theorem mem_npUnique (a : Nat) (l : List Nat) : a ∈ npUnique l ↔ a ∈ l := by
  induction l with
  | nil => simp [npUnique]
  | cons b t ih =>
    show a ∈ insIdx b (npUnique t) ↔ _
    rw [mem_insIdx, ih]
    simp

theorem npUnique_eq_self (l : List Nat) (hl : l.Pairwise (· < ·)) : npUnique l = l := by
  induction l with
  | nil => rfl
  | cons a t ih =>
    rw [List.pairwise_cons] at hl
    show insIdx a (npUnique t) = a :: t
    rw [ih hl.2]
    cases t with
    | nil => rfl
    | cons b s =>
      have hab : a < b := hl.1 b (by simp)
      show (if a < b then a :: b :: s
            else if a = b then b :: s else b :: insIdx a s) = _
      simp [hab]

theorem npUnique_all_eq (l : List Nat) (c : Nat) (hl : l ≠ [])
    (hall : ∀ x ∈ l, x = c) : npUnique l = [c] := by
  induction l with
  | nil => simp at hl
  | cons a t ih =>
    have hac : a = c := hall a (by simp)
    show insIdx a (npUnique t) = [c]
    cases t with
    | nil => simp [npUnique, insIdx, hac]
    | cons b s =>
      have hb : npUnique (b :: s) = [c] :=
        ih (by simp) (fun x hx => hall x (List.mem_cons_of_mem a hx))
      rw [hb, hac]
      show (if c < c then c :: [c]
            else if c = c then [c] else c :: insIdx c []) = [c]
      simp

/-! ## Structure of `find_slices_of_interest` -/

theorem best_lt_zsize (v : Volume) (hz : 1 ≤ v.zsize) :
    npArgmax (sliceSums v) < v.zsize := by
  have hne : sliceSums v ≠ [] := by
    apply List.ne_nil_of_length_pos
    rw [length_sliceSums]
    omega
  have h := npArgmax_lt_length (sliceSums v) hne
  rwa [length_sliceSums] at h

theorem find_slices_eq (v : Volume) (N : Nat) :
    Initial.find_slices_of_interest v N =
      npUnique (linspaceTrunc (npArgmax (sliceSums v) - N * 5)
        (min (v.zsize - 1) (npArgmax (sliceSums v) + N * 5)) N) := rfl

theorem npUnique_linspace_sound (lo hi n : Nat) (hn : 1 ≤ n) (hlohi : lo ≤ hi) :
    (npUnique (linspaceTrunc lo hi n)).Pairwise (· < ·) ∧
    (∀ i ∈ npUnique (linspaceTrunc lo hi n), i ≤ hi) ∧
    1 ≤ (npUnique (linspaceTrunc lo hi n)).length ∧
    (npUnique (linspaceTrunc lo hi n)).length ≤ n := by
  refine ⟨pairwise_lt_npUnique _, ?_, ?_, ?_⟩
  · intro i hi'
    rw [mem_npUnique] at hi'
    exact mem_linspaceTrunc_le lo hi n hlohi hi'
  · have h := npUnique_ne_nil _ (linspaceTrunc_ne_nil lo hi n hn)
    have := List.length_pos.mpr h
    omega
  · calc (npUnique (linspaceTrunc lo hi n)).length
        ≤ (linspaceTrunc lo hi n).length := length_npUnique_le _
      _ = n := length_linspaceTrunc lo hi n

/-! ## The spec-worded slice-selection algorithm of C2

The following definitions follow the specification's own words (§4.2), to be
compared against the translated source code above. -/

/-- Truncation of a rational toward zero, as NumPy's cast to `dtype=int`
("truncated to integers"). -/
def truncToInt (q : ℚ) : ℤ := if 0 ≤ q then ⌊q⌋ else -⌊-q⌋

/-- The spec's "N evenly spaced values between `lo` and `hi` inclusive,
truncated to integers" (for `N = 1` NumPy yields `[lo]`). -/
def specLinspace (lo hi : ℤ) (n : Nat) : List ℤ :=
  if n = 0 then []
  else if n = 1 then [truncToInt (lo : ℚ)]
  else (List.range n).map (fun i : Nat =>
    truncToInt ((lo : ℚ) + (i : ℚ) * ((hi : ℚ) - (lo : ℚ)) / ((n : ℚ) - 1)))

/-- The spec's "deduplicate while preserving ascending order": drop adjacent
duplicates of the (ascending) value sequence. -/
def dedupAdjacent : List ℤ → List ℤ
  | [] => []
  | [a] => [a]
  | a :: b :: rest =>
    if a = b then dedupAdjacent (b :: rest) else a :: dedupAdjacent (b :: rest)

/-- The spec's "best = the z-index of the maximum sum, first occurrence on
ties". -/
def specBest (l : List Int) : Nat :=
  WithBot.recBotCoe 0 l.indexOf l.maximum

/-- The slice-selection algorithm exactly as the claim C2 words it:
per-z sums, first-occurrence argmax, `margin = N*5`,
`lo = max(0, best - margin)`, `hi = min(z_size - 1, best + margin)`,
then the `N` evenly spaced values between `lo` and `hi` inclusive truncated to
integers and deduplicated while preserving ascending order. -/
def find_slices_spec (v : Volume) (N : Nat) : List ℤ :=
  let sums := sliceSums v
  let best : ℤ := specBest sums
  let margin : ℤ := N * 5
  let lo : ℤ := max 0 (best - margin)
  let hi : ℤ := min ((v.zsize : ℤ) - 1) (best + margin)
  dedupAdjacent (specLinspace lo hi N)

/-- Adjacent deduplication on naturals, mirror of `dedupAdjacent`. -/
def dedupAdjN : List Nat → List Nat
  | [] => []
  | [a] => [a]
  | a :: b :: rest =>
    if a = b then dedupAdjN (b :: rest) else a :: dedupAdjN (b :: rest)

theorem foldl_max_comm : ∀ (s : List Int) (b c : Int),
    max b (s.foldl max c) = s.foldl max (max b c) := by
  intro s
  induction s with
  | nil => intro b c; rfl
  | cons d s' ih =>
    intro b c
    simp only [List.foldl_cons]
    rw [ih b (max c d), max_assoc]

theorem maximum_eq_maxVal (l : List Int) (hl : l ≠ []) :
    l.maximum = ((maxVal l : Int) : WithBot Int) := by
  match l with
  | b :: t =>
    show (b :: t).maximum = ((t.foldl max b : Int) : WithBot Int)
    clear hl
    induction t generalizing b with
    | nil => simp [List.maximum_cons]
    | cons c s ih =>
      rw [List.maximum_cons, ih c, List.foldl_cons, ← WithBot.coe_max, foldl_max_comm]

theorem specBest_eq_npArgmax (l : List Int) (hl : l ≠ []) :
    specBest l = npArgmax l := by
  unfold specBest npArgmax
  rw [maximum_eq_maxVal l hl]
  rfl

theorem dedupAdjN_head (b : Nat) (t : List Nat) :
    ∃ t', dedupAdjN (b :: t) = b :: t' := by
  induction t generalizing b with
  | nil => exact ⟨[], rfl⟩
  | cons c s ih =>
    show ∃ t', (if b = c then dedupAdjN (c :: s) else b :: dedupAdjN (c :: s)) = b :: t'
    by_cases hbc : b = c
    · subst hbc
      obtain ⟨t', ht'⟩ := ih b
      exact ⟨t', by simp [ht']⟩
    · exact ⟨dedupAdjN (c :: s), by simp [hbc]⟩

theorem npUnique_eq_dedupAdjN (l : List Nat) (hl : l.Chain' (· ≤ ·)) :
    npUnique l = dedupAdjN l := by
  induction l with
  | nil => rfl
  | cons a t ih =>
    cases t with
    | nil => rfl
    | cons b s =>
      have hab : a ≤ b := (List.chain'_cons.mp hl).1
      have htail := (List.chain'_cons.mp hl).2
      show insIdx a (npUnique (b :: s)) =
        if a = b then dedupAdjN (b :: s) else a :: dedupAdjN (b :: s)
      rw [ih htail]
      obtain ⟨t', ht'⟩ := dedupAdjN_head b s
      rw [ht']
      show (if a < b then a :: b :: t'
            else if a = b then b :: t' else b :: insIdx a t') = _
      by_cases hab' : a = b
      · simp [hab', lt_irrefl]
      · have : a < b := lt_of_le_of_ne hab hab'
        simp [this, hab']

theorem dedupAdjacent_map_cast (l : List Nat) :
    dedupAdjacent (l.map (fun k : Nat => (k : ℤ))) =
      (dedupAdjN l).map (fun k : Nat => (k : ℤ)) := by
  induction l with
  | nil => rfl
  | cons a t ih =>
    cases t with
    | nil => rfl
    | cons b s =>
      show (if (a : ℤ) = (b : ℤ)
            then dedupAdjacent ((b :: s).map (fun k : Nat => (k : ℤ)))
            else (a : ℤ) :: dedupAdjacent ((b :: s).map (fun k : Nat => (k : ℤ)))) =
        (if a = b then dedupAdjN (b :: s) else a :: dedupAdjN (b :: s)).map
          (fun k : Nat => (k : ℤ))
      by_cases hab : a = b
      · rw [if_pos (by exact_mod_cast hab), if_pos hab, ih]
      · rw [if_neg (by exact_mod_cast hab), if_neg hab, ih]
        simp

theorem truncToInt_natCast_div (a m : Nat) (hm : 1 ≤ m) :
    truncToInt ((a : ℚ) / (m : ℚ)) = ((a / m : Nat) : ℤ) := by
  have hq : (0 : ℚ) ≤ (a : ℚ) / (m : ℚ) := by positivity
  unfold truncToInt
  rw [if_pos hq]
  rw [← Int.natCast_floor_eq_floor hq]
  congr 1
  rw [Nat.floor_div_nat ((a : ℚ)) m, Nat.floor_natCast]

theorem specLinspace_eq_trunc (lo hi : Nat) (n : Nat) (h : lo ≤ hi) :
    specLinspace (lo : ℤ) (hi : ℤ) n =
      (linspaceTrunc lo hi n).map (fun k : Nat => (k : ℤ)) := by
  unfold specLinspace linspaceTrunc
  split
  · simp
  · split
    · next h0 h1 =>
      have hT : truncToInt ((lo : ℕ) : ℚ) = ((lo : ℕ) : ℤ) := by
        unfold truncToInt
        rw [if_pos (by positivity)]
        exact Int.floor_natCast lo
      simp [hT]
    · next h0 h1 =>
      have hn2 : 2 ≤ n := by omega
      rw [List.map_map]
      apply List.map_congr_left
      intro i hi'
      simp only [Function.comp_apply]
      have hm : (1 : Nat) ≤ n - 1 := by omega
      have hcast : ((lo : ℤ) : ℚ) + (i : ℚ) * (((hi : ℤ) : ℚ) - ((lo : ℤ) : ℚ)) / ((n : ℚ) - 1)
          = ((lo * (n - 1) + i * (hi - lo) : Nat) : ℚ) / (((n - 1 : Nat) : ℚ)) := by
        have hne2 : ((n : ℚ) - 1) ≠ 0 := by
          have h1n : (1 : ℚ) < (n : ℚ) := by exact_mod_cast hn2
          exact sub_ne_zero.mpr (ne_of_gt h1n)
        push_cast [Nat.cast_sub h, Nat.cast_sub (show 1 ≤ n by omega)]
        rw [eq_div_iff hne2]
        field_simp
      rw [hcast, truncToInt_natCast_div _ _ hm]

/-- C2: slice selection follows the algorithm as the spec words it: per-z
intensity sums, `best` the first-occurrence argmax, `margin = N*5`,
`lo = max(0, best - margin)`, `hi = min(z_size - 1, best + margin)`, the `N`
evenly spaced values between `lo` and `hi` inclusive truncated to integers,
deduplicated preserving ascending order. -/
theorem slice_selection_follows_spec (v : Volume) (N : Nat) (hN : 1 ≤ N)
    (hz : 1 ≤ v.zsize) :
    find_slices_spec v N =
      (Initial.find_slices_of_interest v N).map (fun k : Nat => (k : ℤ)) := by
  have hbest := best_lt_zsize v hz
  have hne : sliceSums v ≠ [] := by
    apply List.ne_nil_of_length_pos
    rw [length_sliceSums]
    omega
  set b := npArgmax (sliceSums v) with hb
  set lo := b - N * 5 with hlo
  set hi := min (v.zsize - 1) (b + N * 5) with hhi
  have hlohi : lo ≤ hi := by omega
  have hsb : specBest (sliceSums v) = b := specBest_eq_npArgmax _ hne
  have hcode : Initial.find_slices_of_interest v N = npUnique (linspaceTrunc lo hi N) :=
    find_slices_eq v N
  have hloZ : max 0 ((specBest (sliceSums v) : ℤ) - (N : ℤ) * 5) = (lo : ℤ) := by
    rw [hsb]
    omega
  have hhiZ : min ((v.zsize : ℤ) - 1) ((specBest (sliceSums v) : ℤ) + (N : ℤ) * 5) =
      (hi : ℤ) := by
    rw [hsb]
    omega
  rw [hcode]
  simp only [find_slices_spec]
  rw [hloZ, hhiZ, specLinspace_eq_trunc lo hi N hlohi, dedupAdjacent_map_cast,
    npUnique_eq_dedupAdjN _ (linspaceTrunc_chain'_le lo hi N)]

theorem slice_selection_follows_spec_witness :
    (1 ≤ 2 ∧ 1 ≤ (Volume.mk 1 1 3 (fun _ _ z => (z : Int))).zsize) ∧
    find_slices_spec (Volume.mk 1 1 3 (fun _ _ z => (z : Int))) 2 =
      (Initial.find_slices_of_interest (Volume.mk 1 1 3 (fun _ _ z => (z : Int))) 2).map
        (fun k : Nat => (k : ℤ)) :=
  ⟨⟨by decide, by decide⟩,
   slice_selection_follows_spec (Volume.mk 1 1 3 (fun _ _ z => (z : Int))) 2
     (by decide) (by decide)⟩

/-- C1: for every 3D volume with `z_size ≥ 1` and every target count `N ≥ 1`,
`find_slices_of_interest` returns a strictly ascending sequence of integers,
each in the range `[0, z_size - 1]`, of length at least 1 and at most `N`;
when `z_size = 1` the result is exactly `[0]`. -/
theorem slice_selection_sound (v : Volume) (N : Nat) (hN : 1 ≤ N) (hz : 1 ≤ v.zsize) :
    (Initial.find_slices_of_interest v N).Pairwise (· < ·) ∧
    (∀ i ∈ Initial.find_slices_of_interest v N, i ≤ v.zsize - 1) ∧
    1 ≤ (Initial.find_slices_of_interest v N).length ∧
    (Initial.find_slices_of_interest v N).length ≤ N ∧
    (v.zsize = 1 → Initial.find_slices_of_interest v N = [0]) := by
  have hbest := best_lt_zsize v hz
  set b := npArgmax (sliceSums v) with hb
  set lo := b - N * 5 with hlo
  set hi := min (v.zsize - 1) (b + N * 5) with hhi
  have heq : Initial.find_slices_of_interest v N = npUnique (linspaceTrunc lo hi N) :=
    find_slices_eq v N
  have hlohi : lo ≤ hi := by omega
  obtain ⟨h1, h2, h3, h4⟩ := npUnique_linspace_sound lo hi N hN hlohi
  rw [heq]
  refine ⟨h1, ?_, h3, h4, ?_⟩
  · intro i hi'
    have := h2 i hi'
    omega
  · intro hz1
    have hlo0 : lo = 0 := by omega
    have hhi0 : hi = 0 := by omega
    rw [hlo0, hhi0]
    apply npUnique_all_eq _ _ (linspaceTrunc_ne_nil 0 0 N hN)
    intro x hx
    exact linspaceTrunc_all_zero N hx

theorem slice_selection_sound_witness :
    (1 ≤ 2 ∧ 1 ≤ (Volume.mk 1 1 3 (fun _ _ z => (z : Int))).zsize) ∧
    ((Initial.find_slices_of_interest (Volume.mk 1 1 3 (fun _ _ z => (z : Int))) 2).Pairwise (· < ·) ∧
     (∀ i ∈ Initial.find_slices_of_interest (Volume.mk 1 1 3 (fun _ _ z => (z : Int))) 2,
        i ≤ (Volume.mk 1 1 3 (fun _ _ z => (z : Int))).zsize - 1) ∧
     1 ≤ (Initial.find_slices_of_interest (Volume.mk 1 1 3 (fun _ _ z => (z : Int))) 2).length ∧
     (Initial.find_slices_of_interest (Volume.mk 1 1 3 (fun _ _ z => (z : Int))) 2).length ≤ 2 ∧
     ((Volume.mk 1 1 3 (fun _ _ z => (z : Int))).zsize = 1 →
       Initial.find_slices_of_interest (Volume.mk 1 1 3 (fun _ _ z => (z : Int))) 2 = [0])) :=
  ⟨⟨by decide, by decide⟩,
   slice_selection_sound (Volume.mk 1 1 3 (fun _ _ z => (z : Int))) 2 (by decide) (by decide)⟩

/-- C8: the initial-pass and final-pass definitions of `find_slices_of_interest`
are extensionally equal: they return identical index sequences on every volume
and target count. -/
theorem initial_final_slice_selection_agree :
    ∀ (data : Volume) (num_slices : Nat),
      Initial.find_slices_of_interest data num_slices =
        Final.find_slices_of_interest data num_slices :=
  fun _ _ => rfl

/-- C9: whenever `1 ≤ N ≤ z_size`, slice selection returns exactly `N`
distinct indices: the clamped span always contains at least `N` integers, the
truncated evenly spaced values are then pairwise distinct, and `np.unique`
drops nothing. -/
theorem slice_selection_exact_count (v : Volume) (N : Nat) (hN : 1 ≤ N)
    (hzN : N ≤ v.zsize) :
    (Initial.find_slices_of_interest v N).length = N := by
  have hz : 1 ≤ v.zsize := le_trans hN hzN
  have hbest := best_lt_zsize v hz
  set b := npArgmax (sliceSums v) with hb
  set lo := b - N * 5 with hlo
  set hi := min (v.zsize - 1) (b + N * 5) with hhi
  have heq : Initial.find_slices_of_interest v N = npUnique (linspaceTrunc lo hi N) :=
    find_slices_eq v N
  have hspan : N - 1 ≤ hi - lo := by omega
  have hchain := linspaceTrunc_chain'_lt lo hi N hspan
  have hpw : (linspaceTrunc lo hi N).Pairwise (· < ·) :=
    List.chain'_iff_pairwise.mp hchain
  rw [heq, npUnique_eq_self _ hpw]
  exact length_linspaceTrunc lo hi N

theorem slice_selection_exact_count_witness :
    (1 ≤ 2 ∧ 2 ≤ (Volume.mk 1 1 3 (fun _ _ z => (z : Int))).zsize) ∧
    (Initial.find_slices_of_interest (Volume.mk 1 1 3 (fun _ _ z => (z : Int))) 2).length = 2 :=
  ⟨⟨by decide, by decide⟩,
   slice_selection_exact_count (Volume.mk 1 1 3 (fun _ _ z => (z : Int))) 2 (by decide) (by decide)⟩

/-! ## Scan-key extraction

Model of the regex `(sub-[^_]+)(?:_(ses-[^_]+))?(?:_(run-[^_]+))?` with
`re.IGNORECASE` and its use in `generate_in_memory_pages`
(`struct_generate_html_reports.py` lines 157, 174-181).  The leading literal of
each group, the greedy `[^_]+` token and underscore separators never overlap,
so the regex engine's backtracking cannot produce any match other than the
greedy left-to-right one modelled here. -/

/-- Case-insensitive match of the literal `lit` at the head of `cs`; returns
the matched original-case text and the remainder. -/
def matchLitCI : List Char → List Char → Option (List Char × List Char)
  | [], cs => some ([], cs)
  | _ :: _, [] => none
  | l :: ls, c :: cs =>
    if c.toLower = l.toLower then
      match matchLitCI ls cs with
      | some (m, r) => some (c :: m, r)
      | none => none
    else none

/-- One optional `(?:_(<lit>[^_]+))?` group: an underscore, the literal
(case-insensitively), then a nonempty run of non-underscore characters.
Returns the captured group (without the underscore) and the remainder;
on failure nothing is consumed. -/
def optSeg (lit : List Char) (cs : List Char) : Option (List Char) × List Char :=
  match cs with
  | '_' :: r =>
    match matchLitCI lit r with
    | some (m, r2) =>
      match r2.span (fun c => c ≠ '_') with
      | (tok, r3) => if tok = [] then (none, cs) else (some (m ++ tok), r3)
    | none => (none, cs)
  | _ => (none, cs)

/-- The full pattern anchored at the current position: `sub-[^_]+` then the
two optional groups. -/
def matchKeyAt (cs : List Char) : Option (String × Option String × Option String) :=
  match matchLitCI ['s', 'u', 'b', '-'] cs with
  | none => none
  | some (m1, r1) =>
    match r1.span (fun c => c ≠ '_') with
    | (tok, r2) =>
      if tok = [] then none
      else
        let g23 := optSeg ['s', 'e', 's', '-'] r2
        let g3 := (optSeg ['r', 'u', 'n', '-'] g23.2).1
        some (String.mk (m1 ++ tok), g23.1.map String.mk, g3.map String.mk)

/-- Model of `pattern.search`: try the pattern at every position, leftmost match wins. -/
def searchKey : List Char → Option (String × Option String × Option String)
  | [] => none
  | c :: cs =>
    match matchKeyAt (c :: cs) with
    | some r => some r
    | none => searchKey cs

/-- Scan-key extraction of `generate_in_memory_pages`: regex search plus the
defaulting `session = 'ses-01'`, `run = ''`; `none` means the file is excluded
from grouping. -/
def scanKey (fname : String) : Option (String × String × String) :=
  match searchKey fname.data with
  | none => none
  | some (subj, sesOpt, runOpt) => some (subj, sesOpt.getD "ses-01", runOpt.getD "")

/-- The claim's "subject-token segment" at a given position: the literal
`sub-` case-insensitively, followed by at least one non-separator character. -/
def subSegmentAt (t : List Char) : Bool :=
  match matchLitCI ['s', 'u', 'b', '-'] t with
  | some (_, r) =>
    match r with
    | [] => false
    | c :: _ => c ≠ '_'
  | none => false

/-- The filename contains a subject-token segment at some position. -/
def hasSubjectSegment (cs : List Char) : Bool := cs.tails.any subSegmentAt

theorem matchKeyAt_isSome (t : List Char) :
    (matchKeyAt t).isSome = subSegmentAt t := by
  unfold matchKeyAt subSegmentAt
  cases hm : matchLitCI ['s', 'u', 'b', '-'] t with
  | none => rfl
  | some pr =>
    obtain ⟨m1, r1⟩ := pr
    cases r1 with
    | nil => rfl
    | cons c r' =>
      by_cases hc : c = '_'
      · subst hc
        simp [List.span_eq_take_drop, List.takeWhile_cons]
      · simp [List.span_eq_take_drop, List.takeWhile_cons, hc]

theorem searchKey_isSome (cs : List Char) :
    (searchKey cs).isSome = hasSubjectSegment cs := by
  induction cs with
  | nil => rfl
  | cons c t ih =>
    show (match matchKeyAt (c :: t) with
          | some r => some r
          | none => searchKey t).isSome = _
    unfold hasSubjectSegment
    rw [List.tails_cons, List.any_cons]
    cases hmk : matchKeyAt (c :: t) with
    | some r =>
      have : subSegmentAt (c :: t) = true := by
        rw [← matchKeyAt_isSome, hmk]
        rfl
      simp [this]
    | none =>
      have : subSegmentAt (c :: t) = false := by
        rw [← matchKeyAt_isSome, hmk]
        rfl
      simp [this]
      exact ih

/-- C3: scan-key extraction recognizes a case-insensitive subject token
optionally followed by session and run tokens; a file with no subject segment
is excluded (`none`), session defaults to `ses-01` and run to `""`; and the
two example filenames map as the claim states. -/
theorem scan_key_extraction :
    scanKey "sub-001_ses-02_run-3_T1w.nii.gz" = some ("sub-001", "ses-02", "run-3") ∧
    scanKey "sub-007_T1w.nii.gz" = some ("sub-007", "ses-01", "") ∧
    scanKey "SUB-001_SES-02_RUN-3_T1w.nii.gz" = some ("SUB-001", "SES-02", "RUN-3") ∧
    ∀ fname : String, (scanKey fname).isSome = hasSubjectSegment fname.data := by
  refine ⟨by decide, by decide, by decide, ?_⟩
  intro fname
  unfold scanKey
  cases hs : searchKey fname.data with
  | none => rw [← searchKey_isSome, hs]; rfl
  | some r =>
    obtain ⟨a, b, c⟩ := r
    rw [← searchKey_isSome, hs]
    rfl

/-! ## Numeric sort key for grouped output

Model of `numeric_sort_key` and `parse_int`
(`struct_generate_html_reports.py` lines 204-213 and 515-525) and of the
stable `sorted(..., key=numeric_sort_key)` call (line 213). -/

/-- The first maximal run of digits in a character list
(`re.search(r'(\d+)', s)`). -/
def firstDigitRun : List Char → List Char
  | [] => []
  | c :: cs => if c.isDigit then c :: cs.takeWhile Char.isDigit else firstDigitRun cs

/-- The natural number denoted by a digit run (`int(...)`; empty run → 0). -/
def natOfDigits (ds : List Char) : Nat :=
  ds.foldl (fun n c => n * 10 + (c.toNat - 48)) 0

/-- Model of `parse_int(s)`: the integer denoted by the first run of digits in `s`,
`0` when there is none. -/
def parse_int (s : String) : Nat :=
  natOfDigits (firstDigitRun s.data)

/-- Recursion core of Python `str.replace(old, "")`.  Each step consumes at
least one character of the subject, so a fuel of its length is exact; the
fuel only makes the recursion structural. -/
def pyRemoveAllAux (old : List Char) : Nat → List Char → List Char
  | _, [] => []
  | 0, l => l
  | fuel + 1, c :: cs =>
    if old ≠ [] ∧ old.isPrefixOf (c :: cs) then
      pyRemoveAllAux old fuel ((c :: cs).drop old.length)
    else
      c :: pyRemoveAllAux old fuel cs

/-- Python `str.replace(old, "")`: remove every non-overlapping occurrence of
`old`, scanning left to right. -/
def pyRemoveAll (old l : List Char) : List Char := pyRemoveAllAux old l.length l

/-- Model of `s.replace(old, "")` on strings. -/
def removeLit (old s : String) : String := String.mk (pyRemoveAll old.data s.data)

/-- Model of `numeric_sort_key(k)`: the numeric 3-tuple extracted from a
(subject, session, run) key. -/
def numeric_sort_key (k : String × String × String) : Nat × Nat × Nat :=
  (parse_int (removeLit "sub-" k.1),
   parse_int (removeLit "ses-" k.2.1),
   parse_int (removeLit "run-" k.2.2))

/-- Lexicographic order of numeric 3-tuples: Python tuple comparison. -/
def tupleLe (a b : Nat × Nat × Nat) : Prop :=
  a.1 < b.1 ∨ (a.1 = b.1 ∧ (a.2.1 < b.2.1 ∨ (a.2.1 = b.2.1 ∧ a.2.2 ≤ b.2.2)))

instance tupleLe.decidable : DecidableRel tupleLe := by
  intro a b
  unfold tupleLe
  infer_instance

/-- The sort relation of `sorted(data_map.keys(), key=numeric_sort_key)`. -/
def keyRel (a b : String × String × String) : Prop :=
  tupleLe (numeric_sort_key a) (numeric_sort_key b)

instance keyRel.decidable : DecidableRel keyRel := by
  intro a b
  unfold keyRel
  infer_instance

instance keyRel.total : IsTotal (String × String × String) keyRel := by
  constructor
  intro a b
  unfold keyRel tupleLe
  omega

instance keyRel.trans : IsTrans (String × String × String) keyRel := by
  constructor
  intro a b c
  unfold keyRel tupleLe
  omega

/-- Model of `sorted(keys, key=numeric_sort_key)`: Python's sort is stable, so it is
extensionally the stable insertion sort by `keyRel`. -/
def sortedByKey (l : List (String × String × String)) : List (String × String × String) :=
  List.insertionSort keyRel l

/-- C4: grouped output is sorted by the numeric key — first digit run of each
token as an integer (0 when absent), 3-tuples compared lexicographically — so
`sub-2`, `sub-10`, `sub-1` sort into subject order 1, 2, 10. -/
theorem grouped_output_numeric_sort :
    (∀ l, (sortedByKey l).Sorted keyRel ∧ (sortedByKey l).Perm l) ∧
    parse_int "6mo" = 6 ∧ parse_int "" = 0 ∧ parse_int "mo" = 0 ∧
    numeric_sort_key ("sub-2", "ses-01", "") = (2, 1, 0) ∧
    numeric_sort_key ("sub-10", "ses-01", "") = (10, 1, 0) ∧
    numeric_sort_key ("sub-1", "ses-01", "") = (1, 1, 0) ∧
    sortedByKey [("sub-2", "ses-01", ""), ("sub-10", "ses-01", ""), ("sub-1", "ses-01", "")] =
      [("sub-1", "ses-01", ""), ("sub-2", "ses-01", ""), ("sub-10", "ses-01", "")] := by
  refine ⟨?_, by decide, by decide, by decide, by decide, by decide, by decide, by decide⟩
  intro l
  exact ⟨List.sorted_insertionSort keyRel l, List.perm_insertionSort keyRel l⟩

/-! ## Review-ledger upsert

Model of `update_csv` (`struct_generate_html_reports.py` lines 88-124) on the
call path of `qc_update`, which always passes a dict holding both the status
and the notes: the first row whose `filename` equals
the key gets its status and notes replaced; otherwise a new row is appended.
The surrounding CSV read/rewrite carries the row list, modelled directly. -/

/-- One row of the master QC CSV: `(filename, status, notes)`. -/
structure LedgerRow where
  filename : String
  status : String
  notes : String
deriving DecidableEq

/-- Model of `update_csv` with the dict argument built by `qc_update`, on the loaded
row list. -/
def update_csv : List LedgerRow → String → String → String → List LedgerRow
  | [], fn, s, n => [⟨fn, s, n⟩]
  | r :: rs, fn, s, n =>
    if r.filename = fn then ⟨fn, s, n⟩ :: rs
    else r :: update_csv rs fn s n

theorem update_csv_append (rows : List LedgerRow) (fn s n : String)
    (h : ∀ r ∈ rows, r.filename ≠ fn) :
    update_csv rows fn s n = rows ++ [⟨fn, s, n⟩] := by
  induction rows with
  | nil => rfl
  | cons r rs ih =>
    show (if r.filename = fn then _ else _) = _
    rw [if_neg (h r (by simp))]
    rw [ih (fun r' hr' => h r' (by simp [hr']))]
    rfl

theorem update_csv_last_wins (rows : List LedgerRow) (fn s1 n1 s2 n2 : String) :
    update_csv (update_csv rows fn s1 n1) fn s2 n2 = update_csv rows fn s2 n2 := by
  induction rows with
  | nil => simp [update_csv]
  | cons r rs ih =>
    by_cases hr : r.filename = fn
    · show update_csv (if r.filename = fn then _ else _) fn s2 n2 = _
      rw [if_pos hr]
      show (if fn = fn then _ else _) = (if r.filename = fn then _ else _)
      rw [if_pos rfl, if_pos hr]
    · show update_csv (if r.filename = fn then _ else _) fn s2 n2 = _
      rw [if_neg hr]
      show (if r.filename = fn then _ else _) = (if r.filename = fn then _ else _)
      rw [if_neg hr, if_neg hr, ih]

theorem update_csv_replace_first (pre post : List LedgerRow) (r0 : LedgerRow)
    (fn s n : String) (hpre : ∀ r ∈ pre, r.filename ≠ fn) (hr0 : r0.filename = fn) :
    update_csv (pre ++ r0 :: post) fn s n = pre ++ ⟨fn, s, n⟩ :: post := by
  induction pre with
  | nil =>
    show (if r0.filename = fn then _ else _) = _
    rw [if_pos hr0]
    rfl
  | cons r rs ih =>
    show (if r.filename = fn then _ else _) = _
    rw [if_neg (hpre r (by simp))]
    exact congrArg (List.cons r) (ih (fun r' hr' => hpre r' (by simp [hr'])))

/-- C5: `update_csv` is an idempotent create-or-overwrite upsert: with no
matching row a new entry is appended; an existing (first) matching row has its
status and notes fully replaced; a second upsert for the same key supersedes
the first; and after two upserts on a previously absent key the ledger holds
exactly one row for that key, carrying the second status and notes. -/
theorem ledger_upsert (rows : List LedgerRow) (fn s1 n1 s2 n2 : String)
    (hfresh : ∀ r ∈ rows, r.filename ≠ fn) :
    update_csv rows fn s1 n1 = rows ++ [⟨fn, s1, n1⟩] ∧
    (∀ (pre post : List LedgerRow) (r0 : LedgerRow), (∀ r ∈ pre, r.filename ≠ fn) →
      r0.filename = fn → update_csv (pre ++ r0 :: post) fn s1 n1 = pre ++ ⟨fn, s1, n1⟩ :: post) ∧
    update_csv (update_csv rows fn s1 n1) fn s2 n2 = update_csv rows fn s2 n2 ∧
    update_csv (update_csv rows fn s1 n1) fn s1 n1 = update_csv rows fn s1 n1 ∧
    (update_csv (update_csv rows fn s1 n1) fn s2 n2).filter
      (fun r => r.filename == fn) = [⟨fn, s2, n2⟩] := by
  refine ⟨update_csv_append rows fn s1 n1 hfresh,
    fun pre post r0 hpre hr0 => update_csv_replace_first pre post r0 fn s1 n1 hpre hr0,
    update_csv_last_wins rows fn s1 n1 s2 n2,
    update_csv_last_wins rows fn s1 n1 s1 n1, ?_⟩
  rw [update_csv_last_wins rows fn s1 n1 s2 n2, update_csv_append rows fn s2 n2 hfresh,
    List.filter_append]
  have h1 : rows.filter (fun r => r.filename == fn) = [] := by
    rw [List.filter_eq_nil_iff]
    intro r hr
    simpa using hfresh r hr
  rw [h1]
  simp

theorem ledger_upsert_witness :
    (∀ r ∈ ([] : List LedgerRow), r.filename ≠ "a.png") ∧
    (update_csv ([] : List LedgerRow) "a.png" "GOOD" "" = [] ++ [⟨"a.png", "GOOD", ""⟩] ∧
     (∀ (pre post : List LedgerRow) (r0 : LedgerRow), (∀ r ∈ pre, r.filename ≠ "a.png") →
       r0.filename = "a.png" →
       update_csv (pre ++ r0 :: post) "a.png" "GOOD" "" = pre ++ ⟨"a.png", "GOOD", ""⟩ :: post) ∧
     update_csv (update_csv ([] : List LedgerRow) "a.png" "GOOD" "") "a.png" "BAD" "x" =
       update_csv ([] : List LedgerRow) "a.png" "BAD" "x" ∧
     update_csv (update_csv ([] : List LedgerRow) "a.png" "GOOD" "") "a.png" "GOOD" "" =
       update_csv ([] : List LedgerRow) "a.png" "GOOD" "" ∧
     (update_csv (update_csv ([] : List LedgerRow) "a.png" "GOOD" "") "a.png" "BAD" "x").filter
       (fun r => r.filename == "a.png") = [⟨"a.png", "BAD", "x"⟩]) :=
  ⟨by simp, ledger_upsert [] "a.png" "GOOD" "" "BAD" "x" (by simp)⟩

/-! ## Intensity statistics

Model of `analyze_nifti` (`struct_pipeline_initial.py` lines 47-60) and of
step 4 of `process_scan_initial` (lines 101-112).  The outcome of
`nib.load(filepath).get_fdata()` is an explicit `Except`: `error` is the
exception the `try` block catches. -/

/-- Outcome of loading a volume from a path: the volume, or the raised
exception's message. -/
abbrev LoadResult := Except String Volume

/-- All voxel values of a volume. -/
def voxels (v : Volume) : List Int :=
  (List.range v.xsize).flatMap (fun x =>
    (List.range v.ysize).flatMap (fun y =>
      (List.range v.zsize).map (fun z => v.val x y z)))

/-- The five-field statistics record.  `mean`, `median`, `maxv`, `minv` are
the exact values of `np.mean`, `np.median`, `np.max`, `np.min`; the source's
`std` is the square root of `variance`, irrational in general, so the record
carries the exact variance (no claim depends on the value). -/
structure NiftiStats where
  mean : ℚ
  median : ℚ
  maxv : ℚ
  minv : ℚ
  variance : ℚ
deriving DecidableEq

/-- Model of `np.mean` (population mean; `0` for the empty list, where NumPy warns and
yields NaN — unreachable from a loaded volume with voxels). -/
def listMean (l : List Int) : ℚ := (l.sum : ℚ) / (l.length : ℚ)

/-- Model of `np.median`: middle of the sorted values, averaging the two middles for
even length. -/
def listMedian (l : List Int) : ℚ :=
  let s := l.insertionSort (· ≤ ·)
  let n := l.length
  if n = 0 then 0
  else if n % 2 = 1 then ((s.getD (n / 2) 0 : Int) : ℚ)
  else (((s.getD (n / 2 - 1) 0 : Int) : ℚ) + ((s.getD (n / 2) 0 : Int) : ℚ)) / 2

/-- Model of `np.max` (reuses the fold of `maxVal`). -/
def listMax (l : List Int) : Int := maxVal l

/-- Model of `np.min`. -/
def listMin : List Int → Int
  | [] => 0
  | a :: rest => rest.foldl min a

/-- The population variance, i.e. the square of `np.std`. -/
def listVariance (l : List Int) : ℚ :=
  (l.map (fun x => ((x : ℚ) - listMean l) ^ 2)).sum / (l.length : ℚ)

/-- Model of `analyze_nifti(filepath)`: any exception while loading yields the empty
dict (modelled `none`); otherwise the five statistics over all voxels. -/
def analyze_nifti (r : LoadResult) : Option NiftiStats :=
  match r with
  | .error _ => none
  | .ok v =>
    some { mean := listMean (voxels v), median := listMedian (voxels v),
           maxv := (listMax (voxels v) : ℚ), minv := (listMin (voxels v) : ℚ),
           variance := listVariance (voxels v) }

/-- The outputs of step 4 of `process_scan_initial`: the stats CSV and the
density SVG, written only when `intensity_stats` is truthy (non-empty). -/
inductive Artifact where
  | statsCsv (s : NiftiStats)
  | densitySvg
deriving DecidableEq

/-- Step 4 of `process_scan_initial` for one scan. -/
def statsStep (r : LoadResult) : List Artifact :=
  match analyze_nifti r with
  | none => []
  | some st => [Artifact.statsCsv st, Artifact.densitySvg]

/-- Step 4 over the scans of a traversal, one load result per scan. -/
def statsStepAll (rs : List LoadResult) : List (List Artifact) := rs.map statsStep

/-- C6: `analyze_nifti` never raises: a failed or malformed load returns the
empty result instead of propagating the exception, the caller then skips the
stats record and the density plot for that scan only, and the other scans of
the traversal are unaffected. -/
theorem analyze_nifti_total :
    (∀ e : String, analyze_nifti (Except.error e) = none) ∧
    (∀ e : String, statsStep (Except.error e) = []) ∧
    (∀ v : Volume, (analyze_nifti (Except.ok v)).isSome = true) ∧
    (∀ (rs1 rs2 : List LoadResult) (e : String),
      statsStepAll (rs1 ++ Except.error e :: rs2) =
        statsStepAll rs1 ++ [] :: statsStepAll rs2) := by
  refine ⟨fun e => rfl, fun e => rfl, fun v => rfl, fun rs1 rs2 e => ?_⟩
  simp [statsStepAll, statsStep, analyze_nifti]

/-! ## Rendering of the statistics record (`embed_stats`)

Models of `embed_stats` in `struct_generate_html_reports.py` (lines 469-495)
and in `struct_report_generator.py` (lines 384-422).  The file read is an
explicit `Except`; a caught `IndexError`/`OSError` becomes the except-branch
string.  Decorative indentation and newlines inside the Python f-strings are
elided; the rendered text is kept verbatim. -/

/-- Python `str.strip()` (ASCII whitespace). -/
def pyStrip (s : String) : String :=
  String.mk (((s.data.dropWhile Char.isWhitespace).reverse.dropWhile
    Char.isWhitespace).reverse)

/-- Model of `[line.strip() for line in f if line.strip()]`. -/
def strippedLines (raw : List String) : List String :=
  (raw.map pyStrip).filter (fun l => l ≠ "")

/-- Split a character list at every occurrence of `sep`
(Python `str.split(sep)` for a one-character separator: no empty-part
removal, `"".split(sep) = [""]`). -/
def splitCharAux (sep : Char) : List Char → List (List Char)
  | [] => [[]]
  | c :: rest =>
    if c = sep then [] :: splitCharAux sep rest
    else
      match splitCharAux sep rest with
      | [] => [[c]]
      | h :: t => (c :: h) :: t

/-- Python `s.split(sep)` for a one-character separator. -/
def pySplit (sep : Char) (s : String) : List String :=
  (splitCharAux sep s.data).map String.mk

/-- Model of `os.path.basename`: the part after the last `/`. -/
def basename (p : String) : String :=
  String.mk ((p.data.reverse.takeWhile (fun c => c ≠ '/')).reverse)

/-- Consume a digit run that may contain single underscores between digits
(Python numeric literals); stops before an underscore not followed by a
digit. -/
def eatMoreDigits : List Char → List Char
  | [] => []
  | c :: cs =>
    if c.isDigit then eatMoreDigits cs
    else if c = '_' then
      match cs with
      | d :: cs' => if d.isDigit then eatMoreDigits cs' else c :: d :: cs'
      | [] => [c]
    else c :: cs

/-- Require at least one digit, then consume the run. -/
def eatDigits : List Char → Option (List Char)
  | c :: cs => if c.isDigit then some (eatMoreDigits cs) else none
  | [] => none

/-- The mantissa of a finite Python float literal:
`digits [. [digits]]` or `. digits`. -/
def eatMantissa (cs : List Char) : Option (List Char) :=
  match eatDigits cs with
  | some r1 =>
    match r1 with
    | '.' :: r2 =>
      match eatDigits r2 with
      | some r3 => some r3
      | none => some r2
    | _ => some r1
  | none =>
    match cs with
    | '.' :: r2 => eatDigits r2
    | _ => none

/-- The optional exponent `(e|E) [+|-] digits`; consumes nothing when no
`e`/`E` follows. -/
def eatExponent (cs : List Char) : Option (List Char) :=
  match cs with
  | c :: r =>
    if c = 'e' ∨ c = 'E' then
      match r with
      | s :: r2 => if s = '+' ∨ s = '-' then eatDigits r2 else eatDigits r
      | [] => none
    else some cs
  | [] => some []

/-- A complete finite float literal. -/
def isFiniteFloat (cs : List Char) : Bool :=
  match eatMantissa cs with
  | some r =>
    match eatExponent r with
    | some r2 => r2.isEmpty
    | none => false
  | none => false

/-- Python `float(s)` acceptance: strip whitespace, optional sign, then
`inf`/`infinity`/`nan` (case-insensitive) or a finite literal. -/
def isPyFloat (s : String) : Bool :=
  let cs := (pyStrip s).data
  let cs2 := match cs with
    | c :: r => if c = '+' ∨ c = '-' then r else cs
    | [] => []
  let low := cs2.map Char.toLower
  (low == ['i', 'n', 'f']) || (low == "infinity".data) || (low == ['n', 'a', 'n']) ||
    isFiniteFloat cs2

/-- Model of `all_numeric(vals)`: every entry parses as a Python float. -/
def all_numeric (vals : List String) : Bool := vals.all isPyFloat

/-- The data row both `embed_stats` versions select: the second line when
there are at least two lines and the second is all-numeric, else the first. -/
def selectParts (lines : List String) : List String :=
  if 2 ≤ lines.length ∧ all_numeric (pySplit ',' (lines.getD 1 "")) then
    pySplit ',' (lines.getD 1 "")
  else
    pySplit ',' (lines.getD 0 "")

/-- Model of `not_found(title)` of both report generators. -/
def not_found (title : String) : String :=
  "<h3>" ++ title ++ "</h3><p style=\x27color:red;\x27>No file found.</p>"

/-- Model of `embed_stats(abs_path)` of `struct_generate_html_reports.py`, over the
path (falsy = `""`) and the outcome of reading the file's lines. -/
def embed_stats (abs_path : String) (readResult : Except String (List String)) : String :=
  if abs_path = "" then not_found "Stats"
  else
    match readResult with
    | .error e => "<h3>Stats</h3><p>Error reading CSV: " ++ e ++ "</p>"
    | .ok raw =>
      let lines := strippedLines raw
      if lines.isEmpty then "<h3>Stats</h3><p>Empty CSV</p>"
      else
        let parts := selectParts lines
        if parts.length = 5 then
          "<h3>Statistics</h3><p>Mean: " ++ parts.getD 0 "" ++
            ", Median: " ++ parts.getD 1 "" ++ ", Max: " ++ parts.getD 2 "" ++
            ", Min: " ++ parts.getD 3 "" ++ ", Std: " ++ parts.getD 4 "" ++ "</p>"
        else
          "<h3>Stats</h3><p>Expected 5 columns, found " ++
            toString parts.length ++ ". CSV: " ++ abs_path ++ "</p>"

/-- Model of `embed_stats(csv_path)` of `struct_report_generator.py`.  There is no
explicit empty-lines check: `lines[0]` raises `IndexError` inside the `try`,
rendered by the except branch. -/
def embed_stats_rg (csv_path : String) (readResult : Except String (List String)) : String :=
  if csv_path = "" then not_found "Stats"
  else
    match readResult with
    | .error e => "<h3>Stats</h3><p>Unable to read CSV: " ++ e ++ "</p>"
    | .ok raw =>
      let lines := strippedLines raw
      if lines.isEmpty then
        "<h3>Stats</h3><p>Unable to read CSV: list index out of range</p>"
      else
        let values := selectParts lines
        if values.length = 5 then
          "<h3>Statistics</h3><table class=\"stats-table\"><tr>" ++
            String.join (["mean", "median", "max", "min", "std"].map
              (fun h => "<th>" ++ h ++ "</th>")) ++
            "</tr><tr>" ++
            String.join (values.map (fun v => "<td>" ++ v ++ "</td>")) ++
            "</tr></table><p><a href=\"" ++ basename csv_path ++
            "\" download>Download CSV</a></p>"
        else
          "<h3>Stats</h3><p>Unexpected format: found " ++ toString values.length ++
            " columns instead of 5.</p><p><a href=\"" ++ basename csv_path ++
            "\" download>Download CSV</a></p>"

/-- C7: rendering a statistics record whose selected data row does not hold
exactly 5 columns produces a visible diagnostic message (and raises nothing:
both renderers are total functions into strings), in both report
generators. -/
theorem malformed_stats_render (path : String) (raw : List String)
    (hpath : ¬ path = "")
    (hne : strippedLines raw ≠ [])
    (hcols : ¬ (selectParts (strippedLines raw)).length = 5) :
    embed_stats path (Except.ok raw) =
      "<h3>Stats</h3><p>Expected 5 columns, found " ++
        toString (selectParts (strippedLines raw)).length ++ ". CSV: " ++ path ++ "</p>" ∧
    embed_stats_rg path (Except.ok raw) =
      "<h3>Stats</h3><p>Unexpected format: found " ++
        toString (selectParts (strippedLines raw)).length ++
        " columns instead of 5.</p><p><a href=\"" ++ basename path ++
        "\" download>Download CSV</a></p>" := by
  have hie : (strippedLines raw).isEmpty = false := by
    cases h : strippedLines raw with
    | nil => exact absurd h hne
    | cons a t => rfl
  constructor
  · unfold embed_stats
    rw [if_neg hpath]
    simp only [hie, Bool.false_eq_true, if_false, if_neg hcols]
  · unfold embed_stats_rg
    rw [if_neg hpath]
    simp only [hie, Bool.false_eq_true, if_false, if_neg hcols]

theorem malformed_stats_render_witness :
    (¬ "stats.csv" = "" ∧ strippedLines ["1,2,3"] ≠ [] ∧
      ¬ (selectParts (strippedLines ["1,2,3"])).length = 5) ∧
    (embed_stats "stats.csv" (Except.ok ["1,2,3"]) =
      "<h3>Stats</h3><p>Expected 5 columns, found " ++
        toString (selectParts (strippedLines ["1,2,3"])).length ++
        ". CSV: " ++ "stats.csv" ++ "</p>" ∧
     embed_stats_rg "stats.csv" (Except.ok ["1,2,3"]) =
      "<h3>Stats</h3><p>Unexpected format: found " ++
        toString (selectParts (strippedLines ["1,2,3"])).length ++
        " columns instead of 5.</p><p><a href=\"" ++ basename "stats.csv" ++
        "\" download>Download CSV</a></p>") :=
  ⟨⟨by decide, by decide, by decide⟩,
   malformed_stats_render "stats.csv" ["1,2,3"] (by decide) (by decide) (by decide)⟩

/-! ## Directory traversal

Models of `traverse_bids_initial` (`struct_pipeline_initial.py` lines
116-132) and `traverse_bids_final` (`struct_pipeline_final.py` lines
259-285), over an abstract directory tree walked top-down like `os.walk`. -/

/-- A directory: its name, the files directly inside, the subdirectories. -/
inductive DirTree where
  | node (name : String) (files : List String) (subdirs : List DirTree)

/-- The directory's own name. -/
def DirTree.name : DirTree → String
  | .node n _ _ => n

/-- Model of `os.path.join(root, fname)`. -/
def joinPath (a b : String) : String := a ++ "/" ++ b

mutual

/-- Model of `os.walk(path)` top-down: the directory's path and files, then each
subdirectory depth-first. -/
def walk (path : String) : DirTree → List (String × List String)
  | .node _ files subs => (path, files) :: walkList path subs

/-- Model of `os.walk` over the subdirectories, in order. -/
def walkList (path : String) : List DirTree → List (String × List String)
  | [] => []
  | t :: ts => walk (joinPath path t.name) t ++ walkList path ts

end

/-- Substring test on character lists (Python `needle in hay`). -/
def containsSub (needle : List Char) : List Char → Bool
  | [] => needle.isPrefixOf []
  | c :: cs => needle.isPrefixOf (c :: cs) || containsSub needle cs

/-- Python `needle in hay` on strings. -/
def strContains (hay needle : String) : Bool := containsSub needle.data hay.data

/-- Python `s.endswith(suf)`. -/
def endsWith (suf s : String) : Bool := suf.data.isSuffixOf s.data

/-- The per-file filter of both traversals:
`(fname.endswith(".nii") or fname.endswith(".nii.gz")) and (scan_type in fname)`. -/
def isMatchingScan (scan_type fname : String) : Bool :=
  (endsWith ".nii" fname || endsWith ".nii.gz" fname) && strContains fname scan_type

/-- Contribution of one `os.walk` entry to the initial traversal (the
`continue` when `"results" in root` skips the whole entry). -/
def initialContrib (scan_type : String) (rf : String × List String) : List String :=
  if strContains rf.1 "results" then []
  else (rf.2.filter (isMatchingScan scan_type)).map (fun f => joinPath rf.1 f)

/-- Model of `traverse_bids_initial(bids_root, scan_type)`: the full paths passed to
`process_scan_initial`, in order. -/
def traverse_bids_initial (bids_root : String) (tree : DirTree)
    (scan_type : String) : List String :=
  (walk bids_root tree).flatMap (initialContrib scan_type)

/-- Exact-case literal match at the head; returns the remainder. -/
def matchLit : List Char → List Char → Option (List Char)
  | [], cs => some cs
  | _ :: _, [] => none
  | l :: ls, c :: cs => if c = l then matchLit ls cs else none

/-- The optional group `(ses-\d+)?` of `extract_sub_ses`. -/
def trySes (cs : List Char) : Option (List Char) :=
  match matchLit ['s', 'e', 's', '-'] cs with
  | some r =>
    let ds := r.takeWhile Char.isDigit
    if ds.isEmpty then none else some ('s' :: 'e' :: 's' :: '-' :: ds)
  | none => none

/-- The pattern `(sub-\d+)_?(ses-\d+)?` anchored at the current position
(case-sensitive, unlike the report generator's pattern). -/
def matchSubSesAt (cs : List Char) : Option (String × Option String) :=
  match matchLit ['s', 'u', 'b', '-'] cs with
  | none => none
  | some r =>
    let ds := r.takeWhile Char.isDigit
    if ds.isEmpty then none
    else
      let rest := r.drop ds.length
      let rest2 := match rest with
        | '_' :: r' => r'
        | _ => rest
      some (String.mk ('s' :: 'u' :: 'b' :: '-' :: ds), (trySes rest2).map String.mk)

/-- Model of `pattern.search` of `extract_sub_ses`: leftmost match. -/
def searchSubSes : List Char → Option (String × Option String)
  | [] => none
  | c :: cs =>
    match matchSubSesAt (c :: cs) with
    | some r => some r
    | none => searchSubSes cs

/-- Model of `extract_sub_ses(filepath)`: the `(None, None)` fallback is `none`. -/
def extract_sub_ses (filepath : String) : Option (String × String) :=
  match searchSubSes (basename filepath).data with
  | some (sub, sesOpt) => some (sub, sesOpt.getD "ses-01")
  | none => none

/-- Model of `sub_ses_key in accepted` (the accepted CSV loaded as string pairs; the
`(None, None)` fallback is never a member). -/
def acceptedScan (accepted : List (String × String)) (fullpath : String) : Bool :=
  match extract_sub_ses fullpath with
  | some k => accepted.contains k
  | none => false

/-- Contribution of one `os.walk` entry to the final traversal. -/
def finalContrib (accepted : List (String × String)) (scan_type : String)
    (rf : String × List String) : List String :=
  if strContains rf.1 "results" then []
  else
    (rf.2.filter (fun f => isMatchingScan scan_type f &&
      acceptedScan accepted (joinPath rf.1 f))).map (fun f => joinPath rf.1 f)

/-- Model of `traverse_bids_final(bids_root, accepted_csv, scan_type)`: the full paths
passed to `process_scan_final`, in order. -/
def traverse_bids_final (bids_root : String) (tree : DirTree)
    (accepted : List (String × String)) (scan_type : String) : List String :=
  (walk bids_root tree).flatMap (finalContrib accepted scan_type)

theorem isPrefixOf_append (n : List Char) : ∀ (a s : List Char),
    n.isPrefixOf a = true → n.isPrefixOf (a ++ s) = true := by
  induction n with
  | nil => intro a s _; simp [List.isPrefixOf]
  | cons x xs ih =>
    intro a s h
    cases a with
    | nil => simp [List.isPrefixOf] at h
    | cons b bs =>
      simp only [List.isPrefixOf, List.cons_append, Bool.and_eq_true, beq_iff_eq] at h ⊢
      exact ⟨h.1, ih bs s h.2⟩

theorem containsSub_nil_left (l : List Char) : containsSub [] l = true := by
  cases l <;> simp [containsSub, List.isPrefixOf]

theorem containsSub_append (n : List Char) : ∀ (a s : List Char),
    containsSub n a = true → containsSub n (a ++ s) = true := by
  intro a
  induction a with
  | nil =>
    intro s h
    have hnil : n.isPrefixOf [] = true := h
    cases n with
    | nil => exact containsSub_nil_left s
    | cons x xs => simp [List.isPrefixOf] at hnil
  | cons c cs ih =>
    intro s h
    have h' : (n.isPrefixOf (c :: cs) || containsSub n cs) = true := h
    show (n.isPrefixOf (c :: cs ++ s) || containsSub n (cs ++ s)) = true
    rcases Bool.or_eq_true_iff.mp h' with h1 | h1
    · rw [isPrefixOf_append n (c :: cs) s h1]
      rfl
    · rw [ih s h1, Bool.or_true]

mutual

theorem walk_path_extends : ∀ (path : String) (t : DirTree) (p : String × List String),
    p ∈ walk path t → ∃ s : List Char, p.1.data = path.data ++ s
  | path, .node n files subs, p, hp => by
    rcases List.mem_cons.mp hp with h | h
    · subst h
      exact ⟨[], by simp⟩
    · exact walkList_path_extends path subs p h

theorem walkList_path_extends : ∀ (path : String) (ts : List DirTree) (p : String × List String),
    p ∈ walkList path ts → ∃ s : List Char, p.1.data = path.data ++ s
  | path, t :: ts, p, hp => by
    rcases List.mem_append.mp hp with h | h
    · obtain ⟨s, hs⟩ := walk_path_extends (joinPath path t.name) t p h
      refine ⟨('/' :: t.name.data) ++ s, ?_⟩
      rw [hs]
      simp [joinPath]
    · exact walkList_path_extends path ts p h

end

theorem flatMap_nil_of_all {α β : Type} (f : α → List β) (l : List α)
    (h : ∀ a ∈ l, f a = []) : l.flatMap f = [] := by
  induction l with
  | nil => rfl
  | cons a t ih =>
    rw [List.flatMap_cons, h a (by simp), ih (fun x hx => h x (by simp [hx]))]
    rfl

/-- C10: both traversals filter by path substring: every directory whose full
path contains `"results"` anywhere contributes no processed file to either
traversal; in particular a `bids_root` whose own path contains `"results"`
yields an entirely empty traversal. -/
theorem results_dirs_skipped :
    (∀ (scan_type : String) (accepted : List (String × String)) (d : String)
       (fs : List String), strContains d "results" = true →
       initialContrib scan_type (d, fs) = [] ∧
       finalContrib accepted scan_type (d, fs) = []) ∧
    (∀ (bids_root : String) (tree : DirTree) (scan_type : String)
       (accepted : List (String × String)), strContains bids_root "results" = true →
       traverse_bids_initial bids_root tree scan_type = [] ∧
       traverse_bids_final bids_root tree accepted scan_type = []) := by
  have hcontrib : ∀ (scan_type : String) (accepted : List (String × String))
      (d : String) (fs : List String), strContains d "results" = true →
      initialContrib scan_type (d, fs) = [] ∧ finalContrib accepted scan_type (d, fs) = [] := by
    intro scan_type accepted d fs hd
    unfold initialContrib finalContrib
    rw [if_pos hd, if_pos hd]
    exact ⟨rfl, rfl⟩
  refine ⟨hcontrib, ?_⟩
  intro bids_root tree scan_type accepted hroot
  have hall : ∀ p ∈ walk bids_root tree, strContains p.1 "results" = true := by
    intro p hp
    obtain ⟨s, hs⟩ := walk_path_extends bids_root tree p hp
    show containsSub ("results".data) p.1.data = true
    rw [hs]
    exact containsSub_append _ _ _ hroot
  constructor
  · apply flatMap_nil_of_all
    intro p hp
    exact (hcontrib scan_type accepted p.1 p.2 (hall p hp)).1
  · apply flatMap_nil_of_all
    intro p hp
    exact (hcontrib scan_type accepted p.1 p.2 (hall p hp)).2

theorem results_dirs_skipped_witness :
    (strContains "/data/results" "results" = true ∧
     initialContrib "T1w" ("/data/results", ["sub-01_T1w.nii.gz"]) = [] ∧
     finalContrib [("sub-01", "ses-01")] "T1w" ("/data/results", ["sub-01_T1w.nii.gz"]) = []) ∧
    (strContains "/x/results_old" "results" = true ∧
     traverse_bids_initial "/x/results_old" (DirTree.node "s" ["sub-01_T1w.nii.gz"] []) "T1w" = [] ∧
     traverse_bids_final "/x/results_old" (DirTree.node "s" ["sub-01_T1w.nii.gz"] [])
       [("sub-01", "ses-01")] "T1w" = []) := by
  have h1 := results_dirs_skipped.1 "T1w" [("sub-01", "ses-01")] "/data/results"
    ["sub-01_T1w.nii.gz"] (by decide)
  have h2 := results_dirs_skipped.2 "/x/results_old"
    (DirTree.node "s" ["sub-01_T1w.nii.gz"] []) "T1w" [("sub-01", "ses-01")] (by decide)
  exact ⟨⟨by decide, h1.1, h1.2⟩, ⟨by decide, h2.1, h2.2⟩⟩

end BidsQC
